import Mathlib

/-!
Verification of the OCR line-reconstruction core of the autoTranslator
repository (src/src/main.rs, src/src/utils.rs, src/src/azure_clients.rs).

The embedding below translates the Rust code directly:
* InterpretedLine        — struct InterpretedLine (utils.rs:41, main.rs:427)
* lineEq                 — the derived PartialEq instance (field-by-field)
* cmpLine / lineLe       — impl Ord for InterpretedLine (utils.rs:86)
* parseI32               — str::parse::<i32> semantics
* splitComma             — str::split(',') semantics
* interpretedLineFromStr — impl FromStr for InterpretedLine (utils.rs:61)
* rustTrim               — str::trim (Unicode White_Space on both ends)
* buildWords             — the word-token mapping and join in make_request
* sortLines              — Vec::sort (a stable sort by the Ord instance;
                           embedded as List.mergeSort, which is stable)
* firstLineIsName        — the name-label heuristic (main.rs:314-322)
* renderOutput           — the output assembly (main.rs:324-339)
* reconstruct            — sort followed by output assembly
* reconstructRaw         — the whole per-capture pipeline; the unwrap-panic
                           on a malformed bounding box is surfaced as an
                           Except error (the abort the spec describes)
-/

namespace AutoTranslator

/-- One OCR-reported line, as in struct InterpretedLine: integer bounding
box coordinates plus the accumulated text. The Rust fields are i32; the
wrap-around of i32 subtraction is modelled explicitly in subI32. -/
structure InterpretedLine where
  x : Int
  y : Int
  width : Int
  height : Int
  text : String
deriving DecidableEq

/-- Rust derive(PartialEq) on InterpretedLine: equality compares every
field, in declaration order. -/
def lineEq (a b : InterpretedLine) : Bool :=
  a.x == b.x && a.y == b.y && a.width == b.width && a.height == b.height
    && a.text == b.text

/-- Ord for InterpretedLine (utils.rs:86-101): compare y, then x. -/
def cmpLine (a b : InterpretedLine) : Ordering :=
  if a.y > b.y then Ordering.gt
  else if a.y < b.y then Ordering.lt
  else if a.x > b.x then Ordering.gt
  else if a.x < b.x then Ordering.lt
  else Ordering.eq

/-- The non-strict comparison a stable sort by cmpLine uses: a may stay
before b exactly when cmpLine does not say a is greater. -/
def lineLe (a b : InterpretedLine) : Bool :=
  cmpLine a b != Ordering.gt

/-- Two's-complement wrap of an integer into the i32 range. -/
def wrapI32 (n : Int) : Int :=
  (n + 2 ^ 31) % 2 ^ 32 - 2 ^ 31

/-- i32 subtraction as the release-mode compiler emits it: wrap-around
modulo 2^32. -/
def subI32 (a b : Int) : Int :=
  wrapI32 (a - b)

/-- The per-line test of the name-label heuristic (main.rs:319):
first.x - line.x > 60, in i32 arithmetic. -/
def nameTest (first line : InterpretedLine) : Bool :=
  decide (60 < subI32 first.x line.x)

/-- Vec::sort: a stable sort by the Ord instance, embedded as the stable
List.mergeSort with comparison lineLe. -/
def sortLines (lines : List InterpretedLine) : List InterpretedLine :=
  lines.mergeSort lineLe

/-- The name-label classification (main.rs:314-322): the list has more
than one element and every remaining line passes nameTest against the
first one. -/
def firstLineIsName (lines : List InterpretedLine) : Bool :=
  match lines with
  | first :: second :: rest => (second :: rest).all (nameTest first)
  | _ => false

/-- Appending every line's text onto an accumulator, as the for_each
push_str loops do (main.rs:329-338). -/
def pushTexts (init : String) (lines : List InterpretedLine) : String :=
  lines.foldl (fun acc line => acc ++ line.text) init

/-- Output assembly from the sorted list (main.rs:324-339). -/
def renderOutput (lines : List InterpretedLine) : String :=
  if firstLineIsName lines then
    match lines with
    | [] => ""
    | first :: rest => pushTexts ("" ++ first.text ++ ": ") rest
  else
    pushTexts "" lines

/-- The reconstruction core: stable sort, then output assembly. -/
def reconstruct (lines : List InterpretedLine) : String :=
  renderOutput (sortLines lines)

/-- Unicode White_Space code points, the set char::is_whitespace tests. -/
def rustIsWhitespace (c : Char) : Bool :=
  [9, 10, 11, 12, 13, 32, 0x85, 0xA0, 0x1680,
    0x2000, 0x2001, 0x2002, 0x2003, 0x2004, 0x2005, 0x2006, 0x2007,
    0x2008, 0x2009, 0x200A, 0x2028, 0x2029, 0x202F, 0x205F, 0x3000].contains c.toNat

/-- Dropping whitespace from both ends of a character list. -/
def trimChars (l : List Char) : List Char :=
  ((l.dropWhile rustIsWhitespace).reverse.dropWhile rustIsWhitespace).reverse

/-- str::trim: remove leading and trailing Unicode whitespace. -/
def rustTrim (s : String) : String :=
  String.mk (trimChars s.data)

/-- Numeric value of a list of decimal digits, most significant first. -/
def digitsVal (ds : List Char) : Nat :=
  ds.foldl (fun acc c => acc * 10 + (c.toNat - 48)) 0

/-- str::parse::<i32> semantics: an optional sign, then one or more ASCII
digits, and the value must fit in the i32 range; anything else fails. -/
def parseI32 (s : List Char) : Option Int :=
  let signed : Bool × List Char :=
    match s with
    | '-' :: rest => (true, rest)
    | '+' :: rest => (false, rest)
    | _ => (false, s)
  let digits := signed.2
  if digits = [] then none
  else if digits.all Char.isDigit then
    let v : Int := if signed.1 then -(digitsVal digits : Int) else (digitsVal digits : Int)
    if -(2 ^ 31) ≤ v ∧ v ≤ 2 ^ 31 - 1 then some v else none
  else none

/-- str::split(',') semantics: the list of (possibly empty) chunks between
commas; the empty string yields one empty chunk. -/
def splitComma : List Char → List (List Char)
  | [] => [[]]
  | c :: cs =>
    if c = ',' then [] :: splitComma cs
    else
      match splitComma cs with
      | [] => [[c]]
      | t :: ts => (c :: t) :: ts

/-- FromStr for InterpretedLine (utils.rs:61-84): the string must split on
commas into exactly four tokens, each of which parses as an i32; the text
accumulator starts empty. -/
def interpretedLineFromStr (s : String) : Option InterpretedLine :=
  match splitComma s.data with
  | [xs, ys, ws, hs] =>
    (parseI32 xs).bind fun x =>
    (parseI32 ys).bind fun y =>
    (parseI32 ws).bind fun w =>
    (parseI32 hs).bind fun h =>
    some (InterpretedLine.mk x y w h "")
  | _ => none

/-- One raw OCR detection: the bounding-box descriptor string and the word
tokens (none models an absent or non-string text field). -/
structure RawLine where
  boundingBox : String
  words : List (Option String)

/-- The single error kind of the core: a malformed bounding-box string. -/
inductive ParseError where
  | malformedBoundingBox
deriving DecidableEq

/-- The word-token mapping of make_request (main.rs:298-304): each token
is read with an empty-string fallback, trimmed, and the results are joined
with no separator. -/
def buildWords (words : List (Option String)) : String :=
  String.join (words.map (fun w => rustTrim (w.getD "")))

/-- Interpreting one raw detection: parse the bounding box, then append
the joined word text (main.rs:296-304). -/
def interpretLine (raw : RawLine) : Option InterpretedLine :=
  (interpretedLineFromStr raw.boundingBox).map
    (fun line => { line with text := line.text ++ buildWords raw.words })

/-- Interpreting every raw detection in order; the first malformed
bounding box aborts the whole run (the unwrap in main.rs:297). -/
def interpretAll : List RawLine → Except ParseError (List InterpretedLine)
  | [] => Except.ok []
  | raw :: rest =>
    match interpretLine raw with
    | none => Except.error ParseError.malformedBoundingBox
    | some line =>
      match interpretAll rest with
      | Except.error e => Except.error e
      | Except.ok lines => Except.ok (line :: lines)

/-- The whole per-capture pipeline: interpret every raw detection, then
reconstruct; a malformed bounding box surfaces as the error. -/
def reconstructRaw (raws : List RawLine) : Except ParseError String :=
  match interpretAll raws with
  | Except.error e => Except.error e
  | Except.ok lines => Except.ok (reconstruct lines)

/-- Strict version of the reading order: a comes strictly before b. -/
def lineLt (a b : InterpretedLine) : Prop :=
  a.y < b.y ∨ (a.y = b.y ∧ a.x < b.x)

/-- Projection of a line onto the data reconstruct can observe:
the coordinates used by the sort and the heuristic, and the text. -/
def projLine (a : InterpretedLine) : Int × Int × String :=
  (a.x, a.y, a.text)

/-- cmpLine transported along projLine. -/
def cmpProj (p q : Int × Int × String) : Ordering :=
  if p.2.1 > q.2.1 then Ordering.gt
  else if p.2.1 < q.2.1 then Ordering.lt
  else if p.1 > q.1 then Ordering.gt
  else if p.1 < q.1 then Ordering.lt
  else Ordering.eq

/-- lineLe transported along projLine. -/
def projLe (p q : Int × Int × String) : Bool :=
  cmpProj p q != Ordering.gt

/- Helper lemmas about the comparison. -/

theorem lineLe_eq_true_iff (a b : InterpretedLine) :
    lineLe a b = true ↔ (a.y < b.y ∨ (a.y = b.y ∧ a.x ≤ b.x)) := by
  unfold lineLe cmpLine
  split_ifs with h1 h2 h3 h4
  · exact iff_of_false (by decide) (by omega)
  · exact iff_of_true (by decide) (by omega)
  · exact iff_of_false (by decide) (by omega)
  · exact iff_of_true (by decide) (by omega)
  · exact iff_of_true (by decide) (by omega)

theorem lineLe_trans : ∀ (a b c : InterpretedLine),
    lineLe a b → lineLe b c → lineLe a c := by
  intro a b c h1 h2
  rw [lineLe_eq_true_iff] at h1 h2 ⊢
  omega

theorem lineLe_total : ∀ (a b : InterpretedLine), lineLe a b || lineLe b a := by
  intro a b
  simp only [Bool.or_eq_true, lineLe_eq_true_iff]
  omega

theorem sortLines_pairwise (lines : List InterpretedLine) :
    (sortLines lines).Pairwise (fun a b => lineLe a b = true) :=
  List.sorted_mergeSort lineLe_trans lineLe_total lines

theorem sortLines_perm (lines : List InterpretedLine) :
    (sortLines lines).Perm lines :=
  List.mergeSort_perm lines lineLe

theorem sortLines_of_sorted {lines : List InterpretedLine}
    (h : lines.Pairwise (fun a b => lineLe a b = true)) : sortLines lines = lines :=
  List.mergeSort_of_sorted h

/- Helper lemmas about output assembly. -/

theorem pushTexts_cons (init : String) (a : InterpretedLine) (t : List InterpretedLine) :
    pushTexts init (a :: t) = pushTexts (init ++ a.text) t := rfl

theorem pushTexts_data : ∀ (lines : List InterpretedLine) (init : String),
    (pushTexts init lines).data
      = init.data ++ (lines.map (fun l => l.text.data)).flatten
  | [], init => by simp [pushTexts]
  | a :: t, init => by
    rw [pushTexts_cons, pushTexts_data t]
    simp

theorem pushTexts_eq_append_join (init : String) (lines : List InterpretedLine) :
    pushTexts init lines = init ++ String.join (lines.map (fun l => l.text)) := by
  apply String.ext
  rw [String.data_append, pushTexts_data, String.join_eq]
  simp [Function.comp_def]

/-- C6: reconstruct of a one-element detection list never applies the
name-label heuristic, whatever the element's coordinates, and returns
exactly that line's text; reconstruct of the empty list returns the empty
string. -/
theorem reconstruct_singleton_and_empty :
    (∀ a : InterpretedLine, reconstruct [a] = a.text) ∧
    reconstruct ([] : List InterpretedLine) = "" := by
  constructor
  · intro a
    have hs : sortLines [a] = [a] := by simp [sortLines]
    rw [reconstruct, hs]
    have hr : renderOutput [a] = pushTexts "" [a] := rfl
    rw [hr, pushTexts_eq_append_join]
    apply String.ext
    simp
  · have hs : sortLines ([] : List InterpretedLine) = [] := by simp [sortLines]
    rw [reconstruct, hs]
    rfl

/-- C3: the order compares y ascending then x ascending, so after the
stable sort every adjacent pair (a, b) of the result satisfies a.y < b.y
or both a.y = b.y and a.x ≤ b.x; and the lines carrying any fixed
coordinate pair keep their original relative order. -/
theorem sortLines_ordering_and_stability :
    (∀ lines : List InterpretedLine,
        (sortLines lines).Chain' (fun a b => a.y < b.y ∨ (a.y = b.y ∧ a.x ≤ b.x))) ∧
    (∀ (lines : List InterpretedLine) (x0 y0 : Int),
        (sortLines lines).filter (fun a => decide (a.x = x0 ∧ a.y = y0))
          = lines.filter (fun a => decide (a.x = x0 ∧ a.y = y0))) := by
  constructor
  · intro lines
    exact ((sortLines_pairwise lines).imp
      (fun h => (lineLe_eq_true_iff _ _).mp h)).chain'
  · intro lines x0 y0
    have hmem : ∀ a ∈ lines.filter (fun a => decide (a.x = x0 ∧ a.y = y0)),
        a.x = x0 ∧ a.y = y0 := by
      intro a ha
      have h := (List.mem_filter.mp ha).2
      exact of_decide_eq_true h
    have hpair : (lines.filter (fun a => decide (a.x = x0 ∧ a.y = y0))).Pairwise
        (fun a b => lineLe a b = true) := by
      apply List.pairwise_of_forall_mem_list
      intro a ha b hb
      rw [lineLe_eq_true_iff]
      have h1 := hmem a ha
      have h2 := hmem b hb
      omega
    have hsub : List.Sublist (lines.filter (fun a => decide (a.x = x0 ∧ a.y = y0)))
        (sortLines lines) :=
      List.sublist_mergeSort lineLe_trans lineLe_total hpair (List.filter_sublist lines)
    have hself : (lines.filter (fun a => decide (a.x = x0 ∧ a.y = y0))).filter
          (fun a => decide (a.x = x0 ∧ a.y = y0))
        = lines.filter (fun a => decide (a.x = x0 ∧ a.y = y0)) :=
      List.filter_eq_self.mpr (fun a ha => (List.mem_filter.mp ha).2)
    have hsub2 : List.Sublist (lines.filter (fun a => decide (a.x = x0 ∧ a.y = y0)))
        ((sortLines lines).filter (fun a => decide (a.x = x0 ∧ a.y = y0))) := by
      have h := hsub.filter (fun a => decide (a.x = x0 ∧ a.y = y0))
      rwa [hself] at h
    have hperm : List.Perm
        ((sortLines lines).filter (fun a => decide (a.x = x0 ∧ a.y = y0)))
        (lines.filter (fun a => decide (a.x = x0 ∧ a.y = y0))) :=
      (sortLines_perm lines).filter (fun a => decide (a.x = x0 ∧ a.y = y0))
    exact (hsub2.eq_of_length hperm.length_eq.symm).symm

/-- C4 counterexample: the claim that equality on InterpretedLine holds
exactly when the x and y coordinates agree fails: these two lines agree on
x and y but differ in width, height and text, and the derived equality
rejects them. -/
theorem lineEq_counterexample :
    (InterpretedLine.mk 0 0 0 0 "").x = (InterpretedLine.mk 0 0 1 1 "t").x ∧
    (InterpretedLine.mk 0 0 0 0 "").y = (InterpretedLine.mk 0 0 1 1 "t").y ∧
    lineEq (InterpretedLine.mk 0 0 0 0 "") (InterpretedLine.mk 0 0 1 1 "t") = false := by
  decide

/-- C4 amended: the derived equality on InterpretedLine compares every
field: two lines are equal exactly when x, y, width, height and text all
agree. Only the ordering is restricted to the coordinates. -/
theorem lineEq_iff_all_fields (a b : InterpretedLine) :
    lineEq a b = true ↔
      a.x = b.x ∧ a.y = b.y ∧ a.width = b.width ∧ a.height = b.height
        ∧ a.text = b.text := by
  simp [lineEq, and_assoc]

/- Helper lemmas about trimming. -/

theorem reverse_trim_decomp (m : List Char) :
    m = (m.reverse.dropWhile rustIsWhitespace).reverse
          ++ (m.reverse.takeWhile rustIsWhitespace).reverse := by
  have h := List.takeWhile_append_dropWhile (p := rustIsWhitespace) (l := m.reverse)
  have h2 := congrArg List.reverse h
  rw [List.reverse_append, List.reverse_reverse] at h2
  exact h2.symm

theorem dropWhile_decomp (l : List Char) :
    l.dropWhile rustIsWhitespace
      = trimChars l
        ++ ((l.dropWhile rustIsWhitespace).reverse.takeWhile rustIsWhitespace).reverse :=
  reverse_trim_decomp (l.dropWhile rustIsWhitespace)

theorem trimChars_decomp (l : List Char) :
    l = l.takeWhile rustIsWhitespace ++ trimChars l
          ++ ((l.dropWhile rustIsWhitespace).reverse.takeWhile rustIsWhitespace).reverse := by
  conv_lhs => rw [← List.takeWhile_append_dropWhile (p := rustIsWhitespace) (l := l),
    dropWhile_decomp]
  rw [List.append_assoc]

theorem trimChars_head (l : List Char) :
    ∀ c, (trimChars l).head? = some c → rustIsWhitespace c = false := by
  intro c hc
  cases htc : trimChars l with
  | nil => rw [htc] at hc; exact Option.noConfusion hc
  | cons c0 t =>
    rw [htc] at hc
    have hc0 : c0 = c := Option.some.inj hc
    subst hc0
    have hd := dropWhile_decomp l
    rw [htc] at hd
    have hhead : (l.dropWhile rustIsWhitespace).head? = some c0 := by
      rw [hd]; rfl
    have h := List.head?_dropWhile_not rustIsWhitespace l
    rw [hhead] at h
    exact h

theorem trimChars_last (l : List Char) :
    ∀ c, (trimChars l).getLast? = some c → rustIsWhitespace c = false := by
  intro c hc
  have hlast : (trimChars l).getLast?
      = ((l.dropWhile rustIsWhitespace).reverse.dropWhile rustIsWhitespace).head? := by
    show (((l.dropWhile rustIsWhitespace).reverse.dropWhile
      rustIsWhitespace).reverse).getLast? = _
    rw [List.getLast?_reverse]
  rw [hlast] at hc
  have h := List.head?_dropWhile_not rustIsWhitespace (l.dropWhile rustIsWhitespace).reverse
  rw [hc] at h
  exact h

/- Helper lemma for the error propagation of the raw pipeline. -/

theorem interpretAll_error_iff (raws : List RawLine) :
    interpretAll raws = Except.error ParseError.malformedBoundingBox ↔
      ∃ raw ∈ raws, interpretedLineFromStr raw.boundingBox = none := by
  induction raws with
  | nil => simp [interpretAll]
  | cons raw rest ih =>
    unfold interpretAll
    cases hL : interpretLine raw with
    | none =>
      have hb : interpretedLineFromStr raw.boundingBox = none :=
        Option.map_eq_none'.mp hL
      exact iff_of_true rfl ⟨raw, List.mem_cons_self raw rest, hb⟩
    | some line =>
      have hb : interpretedLineFromStr raw.boundingBox ≠ none := by
        intro hn
        have hmap : interpretLine raw = none := Option.map_eq_none'.mpr hn
        rw [hL] at hmap
        exact Option.noConfusion hmap
      cases hA : interpretAll rest with
      | error e =>
        cases e
        obtain ⟨r, hr, hrn⟩ := ih.mp hA
        exact iff_of_true rfl ⟨r, List.mem_cons_of_mem raw hr, hrn⟩
      | ok lines =>
        apply iff_of_false
        · intro hcon
          exact Except.noConfusion hcon
        · rintro ⟨r, hr, hrn⟩
          rcases List.mem_cons.mp hr with rfl | hr2
          · exact hb hrn
          · have hres : interpretAll rest = Except.error ParseError.malformedBoundingBox :=
              ih.mpr ⟨r, hr2, hrn⟩
            rw [hA] at hres
            exact Except.noConfusion hres

/-- C5: buildWords trims leading and trailing whitespace from each word
token (an absent token contributes via the empty-string fallback) and
joins the trimmed tokens in order with no separator; rustTrim removes
only whitespace, from the two ends, and its result neither starts nor
ends with whitespace; the concrete token list of the spec builds
"helloworld" and an empty word list builds the empty text. -/
theorem buildWords_spec :
    (∀ words : List (Option String),
        buildWords words = String.join (words.map (fun w => rustTrim (w.getD "")))) ∧
    (∀ s : String, ∃ pre post : List Char,
        s.data = pre ++ (rustTrim s).data ++ post ∧
        pre.all rustIsWhitespace = true ∧ post.all rustIsWhitespace = true ∧
        (∀ c, (rustTrim s).data.head? = some c → rustIsWhitespace c = false) ∧
        (∀ c, (rustTrim s).data.getLast? = some c → rustIsWhitespace c = false)) ∧
    buildWords [some " hello ", some "world", some ""] = "helloworld" ∧
    buildWords [] = "" ∧
    rustTrim ((none : Option String).getD "") = "" := by
  refine ⟨fun words => rfl, ?_, by decide, rfl, rfl⟩
  intro s
  refine ⟨s.data.takeWhile rustIsWhitespace,
    ((s.data.dropWhile rustIsWhitespace).reverse.takeWhile rustIsWhitespace).reverse,
    trimChars_decomp s.data, List.all_takeWhile, ?_, trimChars_head s.data,
    trimChars_last s.data⟩
  rw [List.all_reverse]
  exact List.all_takeWhile

/-- C5 witness: the concrete clause of the word-building theorem. -/
theorem buildWords_spec_witness :
    buildWords [some " hello ", some "world", some ""] = "helloworld" :=
  buildWords_spec.2.2.1

/-- C7: the raw pipeline surfaces a parse failure exactly when some
detection's bounding-box string fails to parse; in that case the run
aborts with the single error the core can raise and no output string is
assembled. -/
theorem reconstructRaw_error_iff (raws : List RawLine) :
    reconstructRaw raws = Except.error ParseError.malformedBoundingBox ↔
      ∃ raw ∈ raws, interpretedLineFromStr raw.boundingBox = none := by
  rw [← interpretAll_error_iff]
  unfold reconstructRaw
  cases hA : interpretAll raws with
  | error e => cases e; simp
  | ok lines => simp

/-- C7 witness: a run containing one malformed bounding box aborts with
the parse error. -/
theorem reconstructRaw_error_iff_witness :
    reconstructRaw [RawLine.mk "10,20,30,40" [some "ok"], RawLine.mk "bad" []]
      = Except.error ParseError.malformedBoundingBox :=
  (reconstructRaw_error_iff
    [RawLine.mk "10,20,30,40" [some "ok"], RawLine.mk "bad" []]).mpr
    ⟨RawLine.mk "bad" [], by simp, by decide⟩

/-- C2: parsing a bounding-box string succeeds exactly when the string
splits on commas into exactly four tokens, each of which parses as a
signed 32-bit integer; on success the line carries those four values and
an empty text accumulator. The four concrete strings of the spec behave
as stated. -/
theorem interpretedLineFromStr_spec :
    (∀ (s : String) (line : InterpretedLine),
        interpretedLineFromStr s = some line ↔
          ∃ xs ys ws hs x y w h,
            splitComma s.data = [xs, ys, ws, hs] ∧
            parseI32 xs = some x ∧ parseI32 ys = some y ∧
            parseI32 ws = some w ∧ parseI32 hs = some h ∧
            line = InterpretedLine.mk x y w h "") ∧
    interpretedLineFromStr "10,20,30,40" = some (InterpretedLine.mk 10 20 30 40 "") ∧
    interpretedLineFromStr "10,20,30" = none ∧
    interpretedLineFromStr "10,20,30,40,50" = none ∧
    interpretedLineFromStr "a,20,30,40" = none := by
  refine ⟨?_, by decide, by decide, by decide, by decide⟩
  intro s line
  constructor
  · intro h
    unfold interpretedLineFromStr at h
    rcases hsp : splitComma s.data with _ | ⟨xs, _ | ⟨ys, _ | ⟨ws, _ | ⟨hs, _ | ⟨t5, r5⟩⟩⟩⟩⟩ <;>
      rw [hsp] at h <;> try exact Option.noConfusion h
    simp only [Option.bind_eq_some] at h
    obtain ⟨x, hx, y, hy, w, hw, h2, hh, hline⟩ := h
    cases hline
    exact ⟨xs, ys, ws, hs, x, y, w, h2, rfl, hx, hy, hw, hh, rfl⟩
  · rintro ⟨xs, ys, ws, hs, x, y, w, h2, heq, hx, hy, hw, hh, rfl⟩
    unfold interpretedLineFromStr
    rw [heq]
    simp [hx, hy, hw, hh]

/-- C1: for every sorted detection list with more than one element, if
every rest element passes the per-line offset test against the first line
then reconstruct returns the first text, a colon-space separator, and the
concatenation of the rest texts in order; if some rest element fails the
test there is no label and the output is the plain concatenation. The two
concrete lists of the spec reconstruct to the stated strings. -/
theorem reconstruct_name_label :
    (∀ (first : InterpretedLine) (rest : List InterpretedLine),
        (first :: rest).Pairwise (fun a b => lineLe a b = true) →
        rest ≠ [] →
        ((∀ line ∈ rest, nameTest first line = true) →
            reconstruct (first :: rest)
              = first.text ++ ": " ++ String.join (rest.map (fun l => l.text))) ∧
        ((∃ line ∈ rest, nameTest first line = false) →
            reconstruct (first :: rest)
              = String.join ((first :: rest).map (fun l => l.text)))) ∧
    reconstruct [InterpretedLine.mk 200 0 0 0 "Tanaka",
      InterpretedLine.mk 10 50 0 0 "Hello",
      InterpretedLine.mk 15 100 0 0 "World"] = "Tanaka: HelloWorld" ∧
    reconstruct [InterpretedLine.mk 50 0 0 0 "A",
      InterpretedLine.mk 10 50 0 0 "B"] = "AB" := by
  refine ⟨?_, ?_, ?_⟩
  · intro first rest hsorted hne
    have hs : sortLines (first :: rest) = first :: rest := sortLines_of_sorted hsorted
    obtain ⟨second, rest2, rfl⟩ : ∃ b t, rest = b :: t := by
      cases rest with
      | nil => exact absurd rfl hne
      | cons b t => exact ⟨b, t, rfl⟩
    constructor
    · intro hall
      have hname : firstLineIsName (first :: second :: rest2) = true := by
        show (second :: rest2).all (nameTest first) = true
        rw [List.all_eq_true]
        exact fun x hx => hall x hx
      rw [reconstruct, hs]
      unfold renderOutput
      rw [if_pos hname]
      show pushTexts ("" ++ first.text ++ ": ") (second :: rest2)
        = first.text ++ ": " ++ String.join ((second :: rest2).map (fun l => l.text))
      rw [pushTexts_eq_append_join, String.empty_append, String.append_assoc]
    · intro hex
      obtain ⟨line, hline, hfail⟩ := hex
      have hname : firstLineIsName (first :: second :: rest2) = false := by
        show (second :: rest2).all (nameTest first) = false
        rw [List.all_eq_false]
        exact ⟨line, hline, by simp [hfail]⟩
      rw [reconstruct, hs]
      unfold renderOutput
      rw [if_neg (by simp [hname])]
      rw [pushTexts_eq_append_join, String.empty_append]
  · have hs : sortLines [InterpretedLine.mk 200 0 0 0 "Tanaka",
        InterpretedLine.mk 10 50 0 0 "Hello", InterpretedLine.mk 15 100 0 0 "World"]
        = [InterpretedLine.mk 200 0 0 0 "Tanaka",
           InterpretedLine.mk 10 50 0 0 "Hello", InterpretedLine.mk 15 100 0 0 "World"] :=
      sortLines_of_sorted (by decide)
    rw [reconstruct, hs]
    decide
  · have hs : sortLines [InterpretedLine.mk 50 0 0 0 "A",
        InterpretedLine.mk 10 50 0 0 "B"]
        = [InterpretedLine.mk 50 0 0 0 "A", InterpretedLine.mk 10 50 0 0 "B"] :=
      sortLines_of_sorted (by decide)
    rw [reconstruct, hs]
    decide

/-- C1 witness: the general clause of the name-label theorem applied to
the concrete sorted three-line list, discharging its hypotheses there. -/
theorem reconstruct_name_label_witness :
    reconstruct [InterpretedLine.mk 200 0 0 0 "Tanaka",
      InterpretedLine.mk 10 50 0 0 "Hello",
      InterpretedLine.mk 15 100 0 0 "World"]
      = "Tanaka" ++ ": " ++ String.join
          (([InterpretedLine.mk 10 50 0 0 "Hello",
             InterpretedLine.mk 15 100 0 0 "World"]).map (fun l => l.text)) :=
  (reconstruct_name_label.1 (InterpretedLine.mk 200 0 0 0 "Tanaka")
    [InterpretedLine.mk 10 50 0 0 "Hello", InterpretedLine.mk 15 100 0 0 "World"]
    (by decide) (by decide)).1 (by decide)

/-- C10: the name-label test computes first.x - line.x in 32-bit
arithmetic. Both bounding boxes below parse as i32, the mathematical
difference 2147483647 - (-100) exceeds 60, but the subtraction wraps to
-2147483549, the per-line test fails, and reconstruct therefore follows
the wrapped value: no name label is produced. -/
theorem nameTest_overflow :
    interpretedLineFromStr "2147483647,0,10,10"
      = some (InterpretedLine.mk 2147483647 0 10 10 "") ∧
    interpretedLineFromStr "-100,50,10,10"
      = some (InterpretedLine.mk (-100) 50 10 10 "") ∧
    (2147483647 : Int) - (-100) > 60 ∧
    subI32 2147483647 (-100) = -2147483549 ∧
    nameTest (InterpretedLine.mk 2147483647 0 10 10 "A")
      (InterpretedLine.mk (-100) 50 10 10 "B") = false ∧
    reconstruct [InterpretedLine.mk 2147483647 0 10 10 "A",
      InterpretedLine.mk (-100) 50 10 10 "B"] = "AB" := by
  refine ⟨by decide, by decide, by decide, by decide, by decide, ?_⟩
  have hs : sortLines [InterpretedLine.mk 2147483647 0 10 10 "A",
        InterpretedLine.mk (-100) 50 10 10 "B"]
      = [InterpretedLine.mk 2147483647 0 10 10 "A",
         InterpretedLine.mk (-100) 50 10 10 "B"] :=
    sortLines_of_sorted (by decide)
  rw [reconstruct, hs]
  decide

theorem lineLt_asymm {a b : InterpretedLine} (h1 : lineLt a b) (h2 : lineLt b a) : False := by
  unfold lineLt at h1 h2
  omega

theorem sorted_strict_perm_eq : ∀ {m1 m2 : List InterpretedLine},
    m1.Perm m2 → m1.Pairwise lineLt → m2.Pairwise lineLt → m1 = m2 := by
  intro m1
  induction m1 with
  | nil =>
    intro m2 h _ _
    exact (h.symm.eq_nil).symm
  | cons a t1 ih =>
    intro m2 h s1 s2
    have ha : a ∈ m2 := h.mem_iff.mp (List.mem_cons_self a t1)
    cases m2 with
    | nil => exact absurd ha (List.not_mem_nil a)
    | cons b t2 =>
      by_cases hab : a = b
      · subst hab
        have ht : t1.Perm t2 := h.cons_inv
        rw [ih ht s1.of_cons s2.of_cons]
      · exfalso
        have hbt1 : b ∈ t1 := by
          have hb : b ∈ a :: t1 := h.mem_iff.mpr (List.mem_cons_self b t2)
          rcases List.mem_cons.mp hb with heq | hmem
          · exact absurd heq.symm hab
          · exact hmem
        have hat2 : a ∈ t2 := by
          rcases List.mem_cons.mp ha with heq | hmem
          · exact absurd heq hab
          · exact hmem
        exact lineLt_asymm (List.rel_of_pairwise_cons s1 hbt1)
          (List.rel_of_pairwise_cons s2 hat2)

theorem sortLines_pairwise_lt {lines : List InterpretedLine}
    (hkeys : lines.Pairwise (fun a b => ¬(a.x = b.x ∧ a.y = b.y))) :
    (sortLines lines).Pairwise lineLt := by
  have hp := sortLines_pairwise lines
  have hsymm : ∀ {x y : InterpretedLine},
      (¬(x.x = y.x ∧ x.y = y.y)) → ¬(y.x = x.x ∧ y.y = x.y) := by
    intro x y h hc
    exact h ⟨hc.1.symm, hc.2.symm⟩
  have hk : (sortLines lines).Pairwise (fun a b => ¬(a.x = b.x ∧ a.y = b.y)) :=
    ((sortLines_perm lines).pairwise_iff hsymm).mpr hkeys
  have hand := hp.and hk
  apply hand.imp
  intro a b hab
  obtain ⟨hle, hne⟩ := hab
  rw [lineLe_eq_true_iff] at hle
  unfold lineLt
  omega

/-- C8: reconstruct is invariant under permutation of the input list when
no two distinct detections share the same coordinate pair: the core
re-sorts, and with all keys distinct the sorted list is unique. -/
theorem reconstruct_perm_invariant (l1 l2 : List InterpretedLine)
    (hperm : l1.Perm l2)
    (hkeys : l1.Pairwise (fun a b => ¬(a.x = b.x ∧ a.y = b.y))) :
    reconstruct l1 = reconstruct l2 := by
  have hkeys2 : l2.Pairwise (fun a b => ¬(a.x = b.x ∧ a.y = b.y)) := by
    have hsymm : ∀ {x y : InterpretedLine},
        (¬(x.x = y.x ∧ x.y = y.y)) → ¬(y.x = x.x ∧ y.y = x.y) := by
      intro x y h hc
      exact h ⟨hc.1.symm, hc.2.symm⟩
    exact (hperm.pairwise_iff hsymm).mp hkeys
  have hs : sortLines l1 = sortLines l2 := by
    apply sorted_strict_perm_eq
    · exact (sortLines_perm l1).trans (hperm.trans (sortLines_perm l2).symm)
    · exact sortLines_pairwise_lt hkeys
    · exact sortLines_pairwise_lt hkeys2
  rw [reconstruct, reconstruct, hs]

/-- C8 witness: the permutation theorem applied to a concrete two-line
list and its swap, discharging the hypotheses there. -/
theorem reconstruct_perm_invariant_witness :
    reconstruct [InterpretedLine.mk 10 50 0 0 "B", InterpretedLine.mk 200 0 0 0 "Tanaka"]
      = reconstruct [InterpretedLine.mk 200 0 0 0 "Tanaka",
          InterpretedLine.mk 10 50 0 0 "B"] :=
  reconstruct_perm_invariant _ _
    (List.Perm.swap (InterpretedLine.mk 200 0 0 0 "Tanaka")
      (InterpretedLine.mk 10 50 0 0 "B") []) (by decide)

theorem pushTexts_congr (t1 t2 : List InterpretedLine) (init : String)
    (h : t1.map projLine = t2.map projLine) : pushTexts init t1 = pushTexts init t2 := by
  induction t1 generalizing t2 init with
  | nil =>
    cases t2 with
    | nil => rfl
    | cons b t => simp at h
  | cons a t ih =>
    cases t2 with
    | nil => simp at h
    | cons b t2b =>
      simp only [List.map_cons, List.cons.injEq] at h
      obtain ⟨hab, ht⟩ := h
      have htext : a.text = b.text := congrArg (fun p => p.2.2) hab
      rw [pushTexts_cons, pushTexts_cons, htext, ih t2b (init ++ b.text) ht]

theorem all_nameTest_congr (f1 f2 : InterpretedLine) (t1 t2 : List InterpretedLine)
    (hf : f1.x = f2.x) (h : t1.map projLine = t2.map projLine) :
    t1.all (nameTest f1) = t2.all (nameTest f2) := by
  induction t1 generalizing t2 with
  | nil =>
    cases t2 with
    | nil => rfl
    | cons b t => simp at h
  | cons a t ih =>
    cases t2 with
    | nil => simp at h
    | cons b t2b =>
      simp only [List.map_cons, List.cons.injEq] at h
      obtain ⟨hab, ht⟩ := h
      have hx : a.x = b.x := congrArg (fun p => p.1) hab
      simp only [List.all_cons]
      rw [ih t2b ht]
      congr 1
      unfold nameTest
      rw [hf, hx]

theorem firstLineIsName_congr (l1 l2 : List InterpretedLine)
    (h : l1.map projLine = l2.map projLine) :
    firstLineIsName l1 = firstLineIsName l2 := by
  cases l1 with
  | nil =>
    cases l2 with
    | nil => rfl
    | cons b t => simp at h
  | cons a t1 =>
    cases l2 with
    | nil => simp at h
    | cons b t2 =>
      simp only [List.map_cons, List.cons.injEq] at h
      obtain ⟨hab, ht⟩ := h
      have hx : a.x = b.x := congrArg (fun p => p.1) hab
      cases t1 with
      | nil =>
        cases t2 with
        | nil => rfl
        | cons c t => simp at ht
      | cons c1 r1 =>
        cases t2 with
        | nil => simp at ht
        | cons c2 r2 =>
          show (c1 :: r1).all (nameTest a) = (c2 :: r2).all (nameTest b)
          exact all_nameTest_congr a b _ _ hx ht

theorem renderOutput_congr (l1 l2 : List InterpretedLine)
    (h : l1.map projLine = l2.map projLine) :
    renderOutput l1 = renderOutput l2 := by
  have hname := firstLineIsName_congr l1 l2 h
  cases l1 with
  | nil =>
    cases l2 with
    | nil => rfl
    | cons b t => simp at h
  | cons a t1 =>
    cases l2 with
    | nil => simp at h
    | cons b t2 =>
      have h2 := h
      simp only [List.map_cons, List.cons.injEq] at h2
      obtain ⟨hab, ht⟩ := h2
      have htext : a.text = b.text := congrArg (fun p => p.2.2) hab
      unfold renderOutput
      rw [hname]
      by_cases hn : firstLineIsName (b :: t2) = true
      · rw [if_pos hn, if_pos hn]
        show pushTexts ("" ++ a.text ++ ": ") t1 = pushTexts ("" ++ b.text ++ ": ") t2
        rw [htext]
        exact pushTexts_congr t1 t2 _ ht
      · rw [if_neg hn, if_neg hn]
        exact pushTexts_congr (a :: t1) (b :: t2) "" h

/-- C9: the width and height fields never influence the output: two lists
equal except in widths and heights reconstruct to identical strings,
since the sort compares y then x, the heuristic reads only x, and the
output is built from the texts. -/
theorem reconstruct_ignores_width_height (l1 l2 : List InterpretedLine)
    (h : List.Forall₂ (fun a b => a.x = b.x ∧ a.y = b.y ∧ a.text = b.text) l1 l2) :
    reconstruct l1 = reconstruct l2 := by
  have hmap : l1.map projLine = l2.map projLine := by
    induction h with
    | nil => rfl
    | cons hab htail ih =>
      simp only [List.map_cons, ih, List.cons.injEq, and_true]
      unfold projLine
      obtain ⟨e1, e2, e3⟩ := hab
      rw [e1, e2, e3]
  have hsorted : (sortLines l1).map projLine = (sortLines l2).map projLine := by
    have e1 : (sortLines l1).map projLine = (l1.map projLine).mergeSort projLe :=
      List.map_mergeSort (fun a _ b _ => rfl)
    have e2 : (sortLines l2).map projLine = (l2.map projLine).mergeSort projLe :=
      List.map_mergeSort (fun a _ b _ => rfl)
    rw [e1, e2, hmap]
  exact renderOutput_congr _ _ hsorted

/-- C9 witness: the width-height independence theorem applied to two
concrete lists differing only in widths and heights. -/
theorem reconstruct_ignores_width_height_witness :
    reconstruct [InterpretedLine.mk 200 0 5 6 "T", InterpretedLine.mk 10 50 1 2 "U"]
      = reconstruct [InterpretedLine.mk 200 0 7 8 "T", InterpretedLine.mk 10 50 3 4 "U"] :=
  reconstruct_ignores_width_height _ _
    (List.Forall₂.cons ⟨rfl, rfl, rfl⟩ (List.Forall₂.cons ⟨rfl, rfl, rfl⟩ List.Forall₂.nil))


/-- C2 witness: the success direction of the parsing theorem applied to
the concrete string of the spec. -/
theorem interpretedLineFromStr_spec_witness :
    interpretedLineFromStr "10,20,30,40" = some (InterpretedLine.mk 10 20 30 40 "") :=
  (interpretedLineFromStr_spec.1 "10,20,30,40" (InterpretedLine.mk 10 20 30 40 "")).mpr
    ⟨['1', '0'], ['2', '0'], ['3', '0'], ['4', '0'], 10, 20, 30, 40,
      by decide, by decide, by decide, by decide, by decide, rfl⟩

/-- C4 witness: the amended equality theorem applied to two identical
concrete lines. -/
theorem lineEq_iff_all_fields_witness :
    lineEq (InterpretedLine.mk 1 2 3 4 "a") (InterpretedLine.mk 1 2 3 4 "a") = true :=
  (lineEq_iff_all_fields (InterpretedLine.mk 1 2 3 4 "a")
    (InterpretedLine.mk 1 2 3 4 "a")).mpr ⟨rfl, rfl, rfl, rfl, rfl⟩

/-- C6 witness: the singleton clause applied to a concrete line. -/
theorem reconstruct_singleton_and_empty_witness :
    reconstruct [InterpretedLine.mk 1 2 3 4 "only"] = "only" :=
  reconstruct_singleton_and_empty.1 (InterpretedLine.mk 1 2 3 4 "only")

/-- C3 witness: the stability clause applied to a concrete list with a
duplicated coordinate pair. -/
theorem sortLines_ordering_and_stability_witness :
    (sortLines [InterpretedLine.mk 1 1 0 0 "a", InterpretedLine.mk 1 1 0 0 "b"]).filter
        (fun a => decide (a.x = 1 ∧ a.y = 1))
      = ([InterpretedLine.mk 1 1 0 0 "a", InterpretedLine.mk 1 1 0 0 "b"]).filter
        (fun a => decide (a.x = 1 ∧ a.y = 1)) :=
  sortLines_ordering_and_stability.2
    [InterpretedLine.mk 1 1 0 0 "a", InterpretedLine.mk 1 1 0 0 "b"] 1 1

end AutoTranslator
